import Mathlib

/-!
Verification of the status-update storage engine of `plonesocial.microblog`
(`plonesocial/microblog/statuscontainer.py`), shallowly embedded in Lean 4.

Modelling conventions:
* BTrees (`LOBTree`, `OOBTree`) are association lists; `insert` mirrors the
  BTree contract (returns 1 and inserts only when the key is absent).
* `LLTreeSet`s are duplicate-free lists of naturals; order is irrelevant
  because `user_keys` sorts its output, so set semantics are kept by
  deduplicating on union.
* Python exceptions become an `Except PyErr` result; state mutated before a
  raise is dropped with the exception, as the caller of a raising method
  observes no return value.
* The volatile `_v_timer` attribute has three observable shapes in Python:
  absent (never initialised), `None`, and a running timer.  It is modelled as
  `Option (Option Nat)` (`none` = attribute absent, `some none` = `None`,
  `some (some d)` = timer armed with a delay of `d` seconds).
* `MAX_QUEUE_AGE` (the batch window, milliseconds) is a module constant in the
  source; operations take it as the explicit parameter `M` so that the
  configured-to-zero mode can be stated.
* Wall-clock reads `int(time.time() * 1000)` become an explicit `now : Nat`
  parameter (milliseconds).
* `unicode(...)` on userids/tags is the identity on our `String` model.
-/

namespace Microblog

/-- Python exception values raised by the container code. -/
inductive PyErr where
  | valueError (msg : String)
  | notImplementedError (msg : String)
  | attributeError (name : String)
deriving DecidableEq

/-- A status-update record as `StatusContainer` consumes it: a mutable
longint id, an author, tags and an opaque text payload.
`providesIStatusUpdate` models whether the object provides the
`IStatusUpdate` interface that `_check_status` tests. -/
structure StatusUpdate where
  id : Nat
  userid : String
  tags : List String
  text : String
  providesIStatusUpdate : Bool
deriving DecidableEq

/-- Association-list lookup, first matching key (keys are unique in every
state the container builds). -/
def mapGet {κ ν : Type} [DecidableEq κ] : List (κ × ν) → κ → Option ν
  | [], _ => none
  | (k', v) :: rest, k => if k' = k then some v else mapGet rest k

/-- Key-membership test of an association list (`key in btree`). -/
def mapHasKey {κ ν : Type} [DecidableEq κ] : List (κ × ν) → κ → Bool
  | [], _ => false
  | (k', _) :: rest, k => if k' = k then true else mapHasKey rest k

/-- BTree `insert(key, value)`: if the key was already in the collection
there is no change and 0 is returned, otherwise the pair is inserted and 1
is returned. -/
def btreeInsert {κ ν : Type} [DecidableEq κ] (m : List (κ × ν)) (k : κ) (v : ν) :
    Bool × List (κ × ν) :=
  if mapHasKey m k then (false, m) else (true, (k, v) :: m)

/-- In-place modification of the value stored under a key
(`mapping[key].insert(...)` mutates the treeset object under `key`). -/
def mapModify {κ ν : Type} [DecidableEq κ] : List (κ × ν) → κ → (ν → ν) → List (κ × ν)
  | [], _, _ => []
  | (k', v) :: rest, k, f =>
      if k' = k then (k', f v) :: rest else (k', v) :: mapModify rest k f

/-- LLTreeSet `insert`: no change when the element is already present. -/
def tsInsert (ts : List Nat) (v : Nat) : List Nat :=
  if v ∈ ts then ts else v :: ts

/-- LLBTree `union` of two treesets: set union (a treeset never holds
duplicates, hence the dedup). -/
def llUnion (a b : List Nat) : List Nat := (a ++ b).dedup

/-- One indexing step shared by `_idx_user` and `_idx_tag`: create the
treeset for the key if not already present, then add the status id to it. -/
def setMapAdd (m : List (String × List Nat)) (k : String) (v : Nat) :
    List (String × List Nat) :=
  mapModify (btreeInsert m k []).2 k (fun ts => tsInsert ts v)

/-- The persistent state of one `StatusContainer` instance together with the
volatile timer attribute and the trail of `ObjectAddedEvent` notifications
it has emitted. -/
structure ContState where
  mtime : Nat
  status_mapping : List (Nat × StatusUpdate)
  user_mapping : List (String × List Nat)
  tag_mapping : List (String × List Nat)
  v_timer : Option (Option Nat)
  notified : List (Nat × StatusUpdate)
deriving DecidableEq

/-- The state `__init__` produces: empty mappings, `_mtime = 0`, and the
volatile `_v_timer` attribute not yet set. -/
def initState : ContState :=
  { mtime := 0, status_mapping := [], user_mapping := [], tag_mapping := [],
    v_timer := none, notified := [] }

/-- The process-global `STATUSQUEUE` (a priority queue of `(id, status)`
pairs), modelled as the list of entries in arrival order; drain order is
obtained by sorting on the priority key. -/
abbrev Queue := List (Nat × StatusUpdate)

/-- Accessor for a user's index entry (empty when the user is unknown). -/
def userSet (s : ContState) (u : String) : List Nat :=
  (mapGet s.user_mapping u).getD []

/-- Accessor for a tag's index entry (empty when the tag is unknown). -/
def tagSet (s : ContState) (t : String) : List Nat :=
  (mapGet s.tag_mapping t).getD []

/-- Source `_check_status`: raise `ValueError` unless the value provides
`IStatusUpdate`. -/
def check_status (st : StatusUpdate) : Except PyErr Unit :=
  if st.providesIStatusUpdate then .ok ()
  else .error (.valueError "IStatusUpdate interface not provided.")

/-- Source `_notify`: emit an `ObjectAddedEvent` carrying the status and its
(final) id as the new name. -/
def notifyEvent (s : ContState) (st : StatusUpdate) : ContState :=
  { s with notified := s.notified ++ [(st.id, st)] }

/-- Source `_idx_user`: ensure a treeset exists for the author, then add the
status id to it. -/
def idx_user (s : ContState) (st : StatusUpdate) : ContState :=
  { s with user_mapping := setMapAdd s.user_mapping st.userid st.id }

/-- Source `_idx_tag`: for every tag of the status, ensure a treeset exists
for the tag, then add the status id to it. -/
def idx_tag (s : ContState) (st : StatusUpdate) : ContState :=
  { s with tag_mapping :=
      st.tags.foldl (fun tm tag => setMapAdd tm tag st.id) s.tag_mapping }

/-- The collision loop of `store`:
`while not mapping.insert(status.id, status): status.id += 1`.
The fuel bounds the number of retries; `store` passes one more than the
number of entries, which always suffices (see `storeLoop_spec`). -/
def storeLoop : List (Nat × StatusUpdate) → Nat → StatusUpdate →
    List (Nat × StatusUpdate) × StatusUpdate
  | m, 0, st => (m, st)
  | m, fuel + 1, st =>
      let r := btreeInsert m st.id st
      if r.1 then (r.2, st)
      else storeLoop m fuel { st with id := st.id + 1 }

/-- Source `store`: allocate a collision-free id by repeated increment,
insert into the primary mapping, index by user and by tags, notify.
The updated status (Python mutates `status.id` in place) is returned
alongside the new state. -/
def store (s : ContState) (st : StatusUpdate) : ContState × StatusUpdate :=
  let r := storeLoop s.status_mapping (s.status_mapping.length + 1) st
  let s1 := { s with status_mapping := r.1 }
  (notifyEvent (idx_tag (idx_user s1 r.2) r.2) r.2, r.2)

/-- Folding `store` over a list of records, keeping only the state. -/
def storeAll (s : ContState) (l : List StatusUpdate) : ContState :=
  l.foldl (fun a st => (store a st).1) s

/-- Folding `store` over a list of records, also collecting the assigned
identifier of each record in order. -/
def runStores : ContState → List StatusUpdate → ContState × List Nat
  | s, [] => (s, [])
  | s, st :: rest =>
      let r := store s st
      let r2 := runStores r.1 rest
      (r2.1, r.2.id :: r2.2)

/-- Source `queue`: `STATUSQUEUE.put((status.id, status))`. -/
def queuePut (q : Queue) (st : StatusUpdate) : Queue := q ++ [(st.id, st)]

/-- Drain order of the priority queue: ascending priority key. -/
def queueDrainOrder (q : Queue) : Queue :=
  List.insertionSort (fun a b => a.1 ≤ b.1) q

/-- Source `_schedule_flush`: no-op when batching is disabled; initialise
the volatile timer attribute on first request; return if a timer is already
running; otherwise arm a timer with delay
`int(math.ceil(float(MAX_QUEUE_AGE) / 1000))` seconds, i.e. the exact
ceiling `(M + 999) / 1000` in natural arithmetic. -/
def schedule_flush (M : Nat) (s : ContState) : ContState :=
  if M = 0 then s
  else
    let s1 := match s.v_timer with
      | none => { s with v_timer := some none }
      | some _ => s
    match s1.v_timer with
    | some (some _) => s1
    | _ => { s1 with v_timer := some (some ((M + 999) / 1000)) }

/-- Source `flush_queue`: under the lock, set `_mtime` to now and cancel and
clear any armed timer — reading `self._v_timer`, which raises
`AttributeError` when the volatile attribute was never initialised (the
`_mtime` write that textually precedes that read is dropped with the
exception, see the modelling conventions).  Then: empty queue means return 0
with no further effect; otherwise drain the queue completely in priority
order, `store` each record, and return 1. -/
def flush_queue (now : Nat) (s : ContState) (q : Queue) :
    Except PyErr (ContState × Queue × Nat) :=
  match s.v_timer with
  | none => .error (.attributeError "_v_timer")
  | some _ =>
      let s1 := { s with mtime := now, v_timer := some none }
      if q.isEmpty then .ok (s1, q, 0)
      else
        let s2 := (queueDrainOrder q).foldl (fun a p => (store a p.2).1) s1
        .ok (s2, [], 1)

/-- Source `autoflush`: flush when more than `MAX_QUEUE_AGE` milliseconds
have passed since `_mtime` (natural subtraction agrees with the Python
integer comparison because `M ≥ 0`). -/
def autoflush (M : Nat) (now : Nat) (s : ContState) (q : Queue) :
    Except PyErr (ContState × Queue × Nat) :=
  if now - s.mtime > M then flush_queue now s q else .ok (s, q, 0)

/-- Source `add`: validate, then either queue + schedule the fallback timer
+ autoflush (batching enabled) or store synchronously and report an
immediate write. -/
def add (M : Nat) (now : Nat) (s : ContState) (q : Queue) (st : StatusUpdate) :
    Except PyErr (ContState × Queue × Nat) :=
  match check_status st with
  | .error e => .error e
  | .ok _ =>
      if M > 0 then
        autoflush M now (schedule_flush M s) (queuePut q st)
      else
        .ok ((store s st).1, q, 1)

/-- The `users` argument of `user_keys`: either a single string or a
collection of userids. -/
inductive UsersArg where
  | str (u : String)
  | list (us : List String)
deriving DecidableEq

/-- Python truthiness of the `users` argument: `not users` holds for the
empty string and for the empty collection. -/
def usersFalsy : UsersArg → Bool
  | .str u => u = ""
  | .list us => us.isEmpty

/-- The normalisation `if type(users) == type(string): users = [users]`. -/
def usersList : UsersArg → List String
  | .str u => [u]
  | .list us => us

/-- Python truthiness of a bound: `not min` holds for `None` and for `0`. -/
def boundFalsy : Option Nat → Bool
  | none => true
  | some n => n = 0

/-- The filter `(not min or min <= x)` of `user_keys`. -/
def minOk (mn : Option Nat) (x : Nat) : Bool := boundFalsy mn || mn.getD 0 ≤ x

/-- The filter `(not max or max >= x)` of `user_keys`. -/
def maxOk (mx : Option Nat) (x : Nat) : Bool := boundFalsy mx || x ≤ mx.getD 0

/-- Source `user_keys`: empty/falsy `users` yields `()`; a plain string is
wrapped into a one-element list; the treesets of the known requested users
are unioned, filtered by the (truthiness-tested) bounds, and sorted. -/
def user_keys (s : ContState) (users : UsersArg) (mn mx : Option Nat) : List Nat :=
  if usersFalsy users then []
  else
    let us := usersList users
    let treesets := us.filterMap (fun u => mapGet s.user_mapping u)
    let merged := treesets.foldl llUnion []
    let keys := merged.filter (fun x => minOk mn x && maxOk mx x)
    List.insertionSort (fun a b => a ≤ b) keys

/-- Blocked raw mutation `insert(key, value)`: always raises. -/
def insert (s : ContState) (key : Nat) (value : StatusUpdate) :
    Except PyErr ContState :=
  .error (.notImplementedError "Can't allow that to happen.")

/-- Blocked raw mutation `pop(k, d=None)`: always raises. -/
def pop (s : ContState) (k : Nat) (d : Option StatusUpdate) :
    Except PyErr ContState :=
  .error (.notImplementedError "Can't allow that to happen.")

/-- Blocked raw mutation `setdefault(k, d)`: always raises. -/
def setdefault (s : ContState) (k : Nat) (d : StatusUpdate) :
    Except PyErr ContState :=
  .error (.notImplementedError "Can't allow that to happen.")

/-- Blocked raw mutation `update(collection)`: always raises. -/
def update (s : ContState) (collection : List (Nat × StatusUpdate)) :
    Except PyErr ContState :=
  .error (.notImplementedError "Can't allow that to happen.")

/-! Concrete sample data, used to exercise the theorems below on closed
inputs. -/

/-- A valid status update requesting id 5 by author "a" tagged "x". -/
def stA : StatusUpdate :=
  { id := 5, userid := "a", tags := ["x"], text := "first",
    providesIStatusUpdate := true }

/-- A valid status update also requesting id 5, by author "b". -/
def stB : StatusUpdate :=
  { id := 5, userid := "b", tags := ["x", "y"], text := "second",
    providesIStatusUpdate := true }

/-- A value that does not provide the `IStatusUpdate` interface. -/
def stBad : StatusUpdate :=
  { id := 7, userid := "c", tags := [], text := "bad",
    providesIStatusUpdate := false }

/-- A valid status update whose author is the empty string. -/
def stAnon : StatusUpdate :=
  { id := 3, userid := "", tags := [], text := "anon",
    providesIStatusUpdate := true }

/-- A container state holding `stA` under key 5. -/
def sA : ContState := (store initState stA).1

/-- A container state holding `stAnon` under key 3. -/
def sE : ContState := (store initState stAnon).1

/-- A container state whose volatile timer attribute is initialised to
`None` (as after `_schedule_flush` ran and the timer fired or was
cancelled). -/
def sArmedNone : ContState := { initState with v_timer := some none }

/-! Helper lemmas about the association-list and treeset operations. -/

theorem mapGet_eq_none_of_hasKey_false {κ ν : Type} [DecidableEq κ]
    {m : List (κ × ν)} {k : κ} (h : mapHasKey m k = false) : mapGet m k = none := by
  induction m with
  | nil => rfl
  | cons p rest ih =>
      obtain ⟨k', v⟩ := p
      by_cases hk : k' = k
      · simp [mapHasKey, hk] at h
      · simp [mapGet, mapHasKey, hk] at h ⊢
        exact ih h

theorem exists_get_of_hasKey {κ ν : Type} [DecidableEq κ]
    {m : List (κ × ν)} {k : κ} (h : mapHasKey m k = true) :
    ∃ v, mapGet m k = some v := by
  induction m with
  | nil => simp [mapHasKey] at h
  | cons p rest ih =>
      obtain ⟨k', v⟩ := p
      by_cases hk : k' = k
      · exact ⟨v, by simp [mapGet, hk]⟩
      · simp [mapHasKey, hk] at h
        simpa [mapGet, hk] using ih h

theorem hasKey_of_get_some {κ ν : Type} [DecidableEq κ]
    {m : List (κ × ν)} {k : κ} {v : ν} (h : mapGet m k = some v) :
    mapHasKey m k = true := by
  by_cases hk : mapHasKey m k = true
  · exact hk
  · rw [mapGet_eq_none_of_hasKey_false (by simpa using hk)] at h
    exact absurd h (by simp)

theorem mem_fst_of_hasKey {κ ν : Type} [DecidableEq κ]
    {m : List (κ × ν)} {k : κ} (h : mapHasKey m k = true) :
    k ∈ m.map Prod.fst := by
  induction m with
  | nil => simp [mapHasKey] at h
  | cons p rest ih =>
      obtain ⟨k', v⟩ := p
      by_cases hk : k' = k
      · simp [hk]
      · simp [mapHasKey, hk] at h
        simp [ih h]

theorem hasKey_cons_of_hasKey {κ ν : Type} [DecidableEq κ]
    {m : List (κ × ν)} {k : κ} (p : κ × ν) (h : mapHasKey m k = true) :
    mapHasKey (p :: m) k = true := by
  obtain ⟨k', v⟩ := p
  by_cases hk : k' = k <;> simp [mapHasKey, hk, h]

/-- Pigeonhole: among the `m.length + 1` candidate ids `k, k+1, …,
`k + m.length` at least one is not a key of `m`. -/
theorem exists_free_id (m : List (Nat × StatusUpdate)) (k : Nat) :
    ∃ j, k ≤ j ∧ j ≤ k + m.length ∧ mapHasKey m j = false := by
  by_contra hall
  push_neg at hall
  have htrue : ∀ j, k ≤ j → j ≤ k + m.length → mapHasKey m j = true := by
    intro j h1 h2
    simpa using hall j h1 h2
  have hsub : ((List.range (m.length + 1)).map (fun i => k + i)) ⊆ m.map Prod.fst := by
    intro x hx
    obtain ⟨i, hi, rfl⟩ := List.mem_map.mp hx
    have hi' : i ≤ m.length := Nat.lt_succ_iff.mp (List.mem_range.mp hi)
    exact mem_fst_of_hasKey (htrue (k + i) (Nat.le_add_right _ _)
      (Nat.add_le_add_left hi' k))
  have hnd : ((List.range (m.length + 1)).map (fun i => k + i)).Nodup :=
    (List.nodup_range _).map (fun a b h => by omega)
  have hlen := (hnd.subperm hsub).length_le
  simp at hlen

/-- Correctness of the collision loop, given enough fuel to reach a free id:
the requested id is incremented past exactly the occupied ids, the final
record equals the input with only its id replaced, and it is inserted at the
head of the mapping. -/
theorem storeLoop_spec :
    ∀ (fuel : Nat) (m : List (Nat × StatusUpdate)) (st : StatusUpdate),
    (∃ j, st.id ≤ j ∧ j < st.id + fuel ∧ mapHasKey m j = false) →
    (storeLoop m fuel st).2 = { st with id := (storeLoop m fuel st).2.id } ∧
    st.id ≤ (storeLoop m fuel st).2.id ∧
    mapHasKey m (storeLoop m fuel st).2.id = false ∧
    (∀ j, st.id ≤ j → j < (storeLoop m fuel st).2.id → mapHasKey m j = true) ∧
    (storeLoop m fuel st).1 =
      ((storeLoop m fuel st).2.id, (storeLoop m fuel st).2) :: m := by
  intro fuel
  induction fuel with
  | zero =>
      intro m st h
      obtain ⟨j, h1, h2, _⟩ := h
      omega
  | succ fuel ih =>
      intro m st h
      by_cases hk : mapHasKey m st.id = true
      · have hstep : storeLoop m (fuel + 1) st =
            storeLoop m fuel { st with id := st.id + 1 } := by
          simp [storeLoop, btreeInsert, hk]
        obtain ⟨j, h1, h2, h3⟩ := h
        have hj : j ≠ st.id := fun he => by rw [he] at h3; rw [hk] at h3; exact Bool.noConfusion h3
        have hpre : ∃ j, ({ st with id := st.id + 1 } : StatusUpdate).id ≤ j ∧
            j < ({ st with id := st.id + 1 } : StatusUpdate).id + fuel ∧
            mapHasKey m j = false := ⟨j, by simp; omega, by simp; omega, h3⟩
        obtain ⟨e1, e2, e3, e4, e5⟩ := ih m { st with id := st.id + 1 } hpre
        rw [hstep]
        have e2' : st.id + 1 ≤ (storeLoop m fuel { st with id := st.id + 1 }).2.id := by
          simpa using e2
        refine ⟨e1, by omega, e3, ?_, e5⟩
        intro j' hj1 hj2
        by_cases hje : j' = st.id
        · rw [hje]; exact hk
        · exact e4 j' (by simp; omega) hj2
      · have hk' : mapHasKey m st.id = false := by simpa using hk
        have hstep : storeLoop m (fuel + 1) st = ((st.id, st) :: m, st) := by
          simp [storeLoop, btreeInsert, hk']
        rw [hstep]
        exact ⟨rfl, Nat.le_refl _, hk', fun j h1 h2 => by simp at h2; omega, rfl⟩

/-- Full specification of `store`: some id `i` is assigned; it is the
smallest id ≥ the requested one that is not yet a key; the stored record is
the input with only its id replaced; and the new state differs from the old
exactly by the head insertion into the primary mapping, the author-index
and tag-index additions, and the emitted notification. -/
theorem store_spec (s : ContState) (st : StatusUpdate) :
    ∃ i, store s st =
      ({ s with
          status_mapping := (i, { st with id := i }) :: s.status_mapping,
          user_mapping := setMapAdd s.user_mapping st.userid i,
          tag_mapping := st.tags.foldl (fun tm tag => setMapAdd tm tag i) s.tag_mapping,
          notified := s.notified ++ [(i, { st with id := i })] },
        { st with id := i }) ∧
      st.id ≤ i ∧ mapHasKey s.status_mapping i = false ∧
      (∀ j, st.id ≤ j → j < i → mapHasKey s.status_mapping j = true) := by
  have hpre : ∃ j, st.id ≤ j ∧ j < st.id + (s.status_mapping.length + 1) ∧
      mapHasKey s.status_mapping j = false := by
    obtain ⟨j, h1, h2, h3⟩ := exists_free_id s.status_mapping st.id
    exact ⟨j, h1, by omega, h3⟩
  obtain ⟨e1, e2, e3, e4, e5⟩ := storeLoop_spec (s.status_mapping.length + 1)
    s.status_mapping st hpre
  refine ⟨(storeLoop s.status_mapping (s.status_mapping.length + 1) st).2.id,
    ?_, e2, e3, e4⟩
  show store s st = _
  rw [store]
  simp only [e5]
  rw [idx_user, idx_tag, notifyEvent]
  have huser : (storeLoop s.status_mapping (s.status_mapping.length + 1) st).2.userid
      = st.userid := by rw [e1]
  have htags : (storeLoop s.status_mapping (s.status_mapping.length + 1) st).2.tags
      = st.tags := by rw [e1]
  simp only [huser, htags]
  rw [← e1]

theorem mapGet_mapModify_self {κ ν : Type} [DecidableEq κ]
    (m : List (κ × ν)) (k : κ) (f : ν → ν) :
    mapGet (mapModify m k f) k = (mapGet m k).map f := by
  induction m with
  | nil => rfl
  | cons p rest ih =>
      obtain ⟨k', v⟩ := p
      by_cases hk : k' = k
      · simp [mapModify, mapGet, hk]
      · simp [mapModify, mapGet, hk, ih]

theorem mapGet_mapModify_ne {κ ν : Type} [DecidableEq κ]
    (m : List (κ × ν)) (k k' : κ) (f : ν → ν) (h : k' ≠ k) :
    mapGet (mapModify m k f) k' = mapGet m k' := by
  induction m with
  | nil => rfl
  | cons p rest ih =>
      obtain ⟨k0, v⟩ := p
      by_cases hk : k0 = k
      · subst hk
        have hne : k0 ≠ k' := fun he => h he.symm
        simp [mapModify, mapGet, hne]
      · by_cases hk' : k0 = k'
        · subst hk'
          simp [mapModify, mapGet, hk]
        · simp [mapModify, mapGet, hk, hk', ih]

theorem setMapAdd_get_self (m : List (String × List Nat)) (k : String) (v : Nat) :
    mapGet (setMapAdd m k v) k = some (tsInsert ((mapGet m k).getD []) v) := by
  by_cases hk : mapHasKey m k = true
  · obtain ⟨ts, hts⟩ := exists_get_of_hasKey hk
    simp [setMapAdd, btreeInsert, hk, mapGet_mapModify_self, hts]
  · have hk' : mapHasKey m k = false := by simpa using hk
    simp [setMapAdd, btreeInsert, hk', mapModify, mapGet,
      mapGet_eq_none_of_hasKey_false hk']

theorem setMapAdd_get_ne (m : List (String × List Nat)) (k k' : String) (v : Nat)
    (h : k' ≠ k) :
    mapGet (setMapAdd m k v) k' = mapGet m k' := by
  by_cases hk : mapHasKey m k = true
  · simp [setMapAdd, btreeInsert, hk, mapGet_mapModify_ne _ _ _ _ h]
  · have hk' : mapHasKey m k = false := by simpa using hk
    simp only [setMapAdd, btreeInsert, hk']
    simp only [Bool.false_eq_true, if_false]
    rw [show mapModify ((k, ([] : List Nat)) :: m) k (fun ts => tsInsert ts v)
        = (k, tsInsert [] v) :: m by simp [mapModify]]
    have hne : k ≠ k' := fun he => h he.symm
    simp [mapGet, hne]

theorem mem_tsInsert (ts : List Nat) (v w : Nat) :
    w ∈ tsInsert ts v ↔ w = v ∨ w ∈ ts := by
  by_cases h : v ∈ ts
  · simp only [tsInsert, if_pos h]
    constructor
    · exact fun hw => Or.inr hw
    · rintro (rfl | hw)
      · exact h
      · exact hw
  · simp [tsInsert, if_neg h]

theorem mem_setMapAdd (m : List (String × List Nat)) (k k' : String) (v w : Nat) :
    w ∈ (mapGet (setMapAdd m k v) k').getD [] ↔
      (k' = k ∧ w = v) ∨ w ∈ (mapGet m k').getD [] := by
  by_cases hk : k' = k
  · subst hk
    rw [setMapAdd_get_self]
    simp [mem_tsInsert]
  · rw [setMapAdd_get_ne _ _ _ _ hk]
    simp [hk]

theorem mem_foldTags (tags : List String) :
    ∀ (tm : List (String × List Nat)) (v : Nat) (t : String) (w : Nat),
    w ∈ (mapGet (tags.foldl (fun a tag => setMapAdd a tag v) tm) t).getD [] ↔
      (t ∈ tags ∧ w = v) ∨ w ∈ (mapGet tm t).getD [] := by
  induction tags with
  | nil => intro tm v t w; simp
  | cons tag rest ih =>
      intro tm v t w
      rw [List.foldl_cons, ih, mem_setMapAdd]
      constructor
      · rintro (⟨h1, h2⟩ | ⟨h1, h2⟩ | h)
        · exact Or.inl ⟨List.mem_cons_of_mem _ h1, h2⟩
        · exact Or.inl ⟨by simp [h1], h2⟩
        · exact Or.inr h
      · rintro (⟨h1, h2⟩ | h)
        · rcases List.mem_cons.mp h1 with h1 | h1
          · exact Or.inr (Or.inl ⟨h1, h2⟩)
          · exact Or.inl ⟨h1, h2⟩
        · exact Or.inr (Or.inr h)

/-! Lemmas describing the effect of one `store` and of a sequence of
`store`s on the primary mapping and on both indexes. -/

theorem store_userSet_mem (s : ContState) (st : StatusUpdate) (u : String) (w : Nat) :
    w ∈ userSet (store s st).1 u ↔
      (u = st.userid ∧ w = (store s st).2.id) ∨ w ∈ userSet s u := by
  obtain ⟨i, heq, _, _, _⟩ := store_spec s st
  have h2 : (store s st).2 = { st with id := i } := by rw [heq]
  have hid : (store s st).2.id = i := by rw [h2]
  rw [userSet, hid, heq]
  simpa using mem_setMapAdd s.user_mapping st.userid u i w

theorem store_tagSet_mem (s : ContState) (st : StatusUpdate) (t : String) (w : Nat) :
    w ∈ tagSet (store s st).1 t ↔
      (t ∈ st.tags ∧ w = (store s st).2.id) ∨ w ∈ tagSet s t := by
  obtain ⟨i, heq, _, _, _⟩ := store_spec s st
  have h2 : (store s st).2 = { st with id := i } := by rw [heq]
  have hid : (store s st).2.id = i := by rw [h2]
  rw [tagSet, hid, heq]
  simpa using mem_foldTags st.tags s.tag_mapping i t w

theorem store_mapGet (s : ContState) (st : StatusUpdate) (j : Nat) :
    mapGet (store s st).1.status_mapping j =
      if j = (store s st).2.id then some (store s st).2
      else mapGet s.status_mapping j := by
  obtain ⟨i, heq, _, _, _⟩ := store_spec s st
  have h2 : (store s st).2 = { st with id := i } := by rw [heq]
  have hid : (store s st).2.id = i := by rw [h2]
  rw [hid, h2, heq]
  by_cases hj : j = i
  · subst hj
    simp [mapGet]
  · have hne : i ≠ j := fun he => hj he.symm
    simp [mapGet, hne, hj]

theorem store_mtime (s : ContState) (st : StatusUpdate) :
    (store s st).1.mtime = s.mtime := by
  obtain ⟨i, heq, _, _, _⟩ := store_spec s st
  rw [heq]

theorem store_v_timer (s : ContState) (st : StatusUpdate) :
    (store s st).1.v_timer = s.v_timer := by
  obtain ⟨i, heq, _, _, _⟩ := store_spec s st
  rw [heq]

theorem storeAll_mapGet_pres :
    ∀ (l : List StatusUpdate) (s : ContState) (j : Nat) (v : StatusUpdate),
    mapGet s.status_mapping j = some v →
    mapGet (storeAll s l).status_mapping j = some v := by
  intro l
  induction l with
  | nil => intro s j v h; exact h
  | cons st rest ih =>
      intro s j v h
      rw [storeAll, List.foldl_cons]
      apply ih
      rw [store_mapGet]
      obtain ⟨i, heq, _, hfree, _⟩ := store_spec s st
      have hid : (store s st).2.id = i := by rw [heq]
      have hj : j ≠ (store s st).2.id := by
        rw [hid]
        intro he
        rw [← he] at hfree
        rw [hasKey_of_get_some h] at hfree
        exact Bool.noConfusion hfree
      rw [if_neg hj]
      exact h

theorem storeAll_userSet_pres :
    ∀ (l : List StatusUpdate) (s : ContState) (u : String) (w : Nat),
    w ∈ userSet s u → w ∈ userSet (storeAll s l) u := by
  intro l
  induction l with
  | nil => intro s u w h; exact h
  | cons st rest ih =>
      intro s u w h
      rw [storeAll, List.foldl_cons]
      exact ih _ _ _ ((store_userSet_mem s st u w).mpr (Or.inr h))

theorem storeAll_tagSet_pres :
    ∀ (l : List StatusUpdate) (s : ContState) (t : String) (w : Nat),
    w ∈ tagSet s t → w ∈ tagSet (storeAll s l) t := by
  intro l
  induction l with
  | nil => intro s t w h; exact h
  | cons st rest ih =>
      intro s t w h
      rw [storeAll, List.foldl_cons]
      exact ih _ _ _ ((store_tagSet_mem s st t w).mpr (Or.inr h))

/-- Every record in a drained batch ends up committed: it is retrievable
from the primary mapping under its assigned id and that id is in the
author's index entry and in the index entry of each of its tags. -/
theorem storeAll_commits :
    ∀ (l : List StatusUpdate) (s : ContState) (st : StatusUpdate), st ∈ l →
    ∃ i, mapGet (storeAll s l).status_mapping i = some { st with id := i } ∧
      i ∈ userSet (storeAll s l) st.userid ∧
      ∀ t, t ∈ st.tags → i ∈ tagSet (storeAll s l) t := by
  intro l
  induction l with
  | nil => intro s st h; exact absurd h (List.not_mem_nil st)
  | cons hd rest ih =>
      intro s st h
      rcases List.mem_cons.mp h with rfl | hmem
      · obtain ⟨i, heq, _, _, _⟩ := store_spec s st
        have h2 : (store s st).2 = { st with id := i } := by rw [heq]
        have hid : (store s st).2.id = i := by rw [h2]
        refine ⟨i, ?_, ?_, ?_⟩
        · rw [storeAll, List.foldl_cons]
          apply storeAll_mapGet_pres
          rw [store_mapGet, hid, if_pos rfl, h2]
        · rw [storeAll, List.foldl_cons]
          apply storeAll_userSet_pres
          exact (store_userSet_mem s st st.userid i).mpr (Or.inl ⟨rfl, hid.symm⟩)
        · intro t ht
          rw [storeAll, List.foldl_cons]
          apply storeAll_tagSet_pres
          exact (store_tagSet_mem s st t i).mpr (Or.inl ⟨ht, hid.symm⟩)
      · rw [storeAll, List.foldl_cons]
        exact ih _ _ hmem

theorem runStores_fresh :
    ∀ (l : List StatusUpdate) (s : ContState) (j : Nat),
    mapHasKey s.status_mapping j = true → j ∉ (runStores s l).2 := by
  intro l
  induction l with
  | nil => intro s j _; simp [runStores]
  | cons st rest ih =>
      intro s j h
      rw [runStores]
      simp only [List.mem_cons, not_or]
      obtain ⟨i, heq, _, hfree, _⟩ := store_spec s st
      have hid : (store s st).2.id = i := by rw [heq]
      constructor
      · rw [hid]
        intro he
        rw [he] at h
        rw [h] at hfree
        exact Bool.noConfusion hfree
      · apply ih
        rw [heq]
        exact hasKey_cons_of_hasKey _ h

/-- The identifiers assigned along any sequence of `store`s are pairwise
distinct. -/
theorem runStores_nodup :
    ∀ (l : List StatusUpdate) (s : ContState), ((runStores s l).2).Nodup := by
  intro l
  induction l with
  | nil => intro s; simp [runStores]
  | cons st rest ih =>
      intro s
      rw [runStores]
      refine List.nodup_cons.mpr ⟨?_, ih _⟩
      apply runStores_fresh
      obtain ⟨i, heq, _, _, _⟩ := store_spec s st
      have hid : (store s st).2.id = i := by rw [heq]
      rw [hid, heq]
      simp [mapHasKey]

/-! Lemmas about the `user_keys` query path. -/

theorem mem_llUnion (a b : List Nat) (x : Nat) :
    x ∈ llUnion a b ↔ x ∈ a ∨ x ∈ b := by
  simp [llUnion]

theorem nodup_llUnion (a b : List Nat) : (llUnion a b).Nodup :=
  List.nodup_dedup _

theorem mem_foldl_llUnion :
    ∀ (l : List (List Nat)) (acc : List Nat) (x : Nat),
    x ∈ l.foldl llUnion acc ↔ x ∈ acc ∨ ∃ ts, ts ∈ l ∧ x ∈ ts := by
  intro l
  induction l with
  | nil => intro acc x; simp
  | cons ts rest ih =>
      intro acc x
      rw [List.foldl_cons, ih, mem_llUnion]
      constructor
      · rintro ((h | h) | ⟨ts', h1, h2⟩)
        · exact Or.inl h
        · exact Or.inr ⟨ts, by simp, h⟩
        · exact Or.inr ⟨ts', by simp [h1], h2⟩
      · rintro (h | ⟨ts', h1, h2⟩)
        · exact Or.inl (Or.inl h)
        · rcases List.mem_cons.mp h1 with rfl | h1
          · exact Or.inl (Or.inr h2)
          · exact Or.inr ⟨ts', h1, h2⟩

theorem nodup_foldl_llUnion :
    ∀ (l : List (List Nat)) (acc : List Nat), acc.Nodup →
    (l.foldl llUnion acc).Nodup := by
  intro l
  induction l with
  | nil => intro acc h; exact h
  | cons ts rest ih =>
      intro acc _
      rw [List.foldl_cons]
      exact ih _ (nodup_llUnion acc ts)

theorem mem_userSet_iff (s : ContState) (u : String) (x : Nat) :
    x ∈ userSet s u ↔ ∃ ts, mapGet s.user_mapping u = some ts ∧ x ∈ ts := by
  rw [userSet]
  cases h : mapGet s.user_mapping u <;> simp [h]

/-- Membership in the result of `user_keys` (collection form): exactly the
union of the requested users' index sets, filtered by the
truthiness-interpreted bounds. -/
theorem user_keys_mem (s : ContState) (us : List String) (mn mx : Option Nat)
    (x : Nat) :
    x ∈ user_keys s (.list us) mn mx ↔
      (∃ u, u ∈ us ∧ x ∈ userSet s u) ∧ minOk mn x = true ∧ maxOk mx x = true := by
  cases us with
  | nil => simp [user_keys, usersFalsy]
  | cons u0 rest =>
      simp only [user_keys, usersFalsy, List.isEmpty_cons, if_false,
        Bool.false_eq_true, usersList]
      rw [List.mem_insertionSort (fun a b : Nat => a ≤ b), List.mem_filter,
        mem_foldl_llUnion]
      simp only [List.not_mem_nil, false_or, List.mem_filterMap, Bool.and_eq_true]
      constructor
      · rintro ⟨⟨ts, ⟨u, hu, hget⟩, hx⟩, h1, h2⟩
        exact ⟨⟨u, hu, (mem_userSet_iff s u x).mpr ⟨ts, hget, hx⟩⟩, h1, h2⟩
      · rintro ⟨⟨u, hu, hx⟩, h1, h2⟩
        obtain ⟨ts, hget, hx'⟩ := (mem_userSet_iff s u x).mp hx
        exact ⟨⟨ts, ⟨u, hu, hget⟩, hx'⟩, h1, h2⟩

/-- The result of `user_keys` is strictly ascending. -/
theorem user_keys_sorted (s : ContState) (users : UsersArg) (mn mx : Option Nat) :
    (user_keys s users mn mx).Sorted (fun a b => a < b) := by
  rw [user_keys]
  by_cases hf : usersFalsy users = true
  · simp [hf]
  · simp only [hf, Bool.false_eq_true, if_false]
    apply List.Sorted.lt_of_le
    · exact List.sorted_insertionSort (fun a b : Nat => a ≤ b) _
    · refine ((List.perm_insertionSort (fun a b : Nat => a ≤ b) _).nodup_iff).mpr ?_
      apply List.Nodup.filter
      exact nodup_foldl_llUnion _ _ List.nodup_nil

theorem minOk_iff (mn : Option Nat) (x : Nat) :
    minOk mn x = true ↔ ∀ m, mn = some m → 0 < m → m ≤ x := by
  cases mn with
  | none => simp [minOk, boundFalsy]
  | some m =>
      by_cases hm : m = 0
      · subst hm
        simp [minOk, boundFalsy]
      · simp only [minOk, boundFalsy, Option.getD_some, Bool.or_eq_true,
          decide_eq_true_eq]
        constructor
        · rintro (h | h)
          · exact absurd h hm
          · intro m' hm' _; cases Option.some.inj hm'; exact h
        · intro h
          exact Or.inr (h m rfl (Nat.pos_of_ne_zero hm))

theorem maxOk_iff (mx : Option Nat) (x : Nat) :
    maxOk mx x = true ↔ ∀ m, mx = some m → 0 < m → x ≤ m := by
  cases mx with
  | none => simp [maxOk, boundFalsy]
  | some m =>
      by_cases hm : m = 0
      · subst hm
        simp [maxOk, boundFalsy]
      · simp only [maxOk, boundFalsy, Option.getD_some, Bool.or_eq_true,
          decide_eq_true_eq]
        constructor
        · rintro (h | h)
          · exact absurd h hm
          · intro m' hm' _; cases Option.some.inj hm'; exact h
        · intro h
          exact Or.inr (h m rfl (Nat.pos_of_ne_zero hm))

/-! Lemmas about the batching front end. -/

theorem schedule_flush_mtime (M : Nat) (s : ContState) :
    (schedule_flush M s).mtime = s.mtime := by
  rw [schedule_flush]
  by_cases hM : M = 0
  · simp [hM]
  · simp only [hM, if_false]
    cases h : s.v_timer with
    | none => simp
    | some w => cases w <;> simp [h]

theorem flush_fold_eq_storeAll (s : ContState) (l : List (Nat × StatusUpdate)) :
    l.foldl (fun a p => (store a p.2).1) s = storeAll s (l.map Prod.snd) := by
  rw [storeAll, List.foldl_map]

/-! The claims. -/

/-- C1: for every record committed via `store`, the assigned identifier is
the smallest identifier ≥ the requested one that is not already a key of
the primary mapping (found by repeated increment and retry), and along
every sequence of committed records the assigned identifiers are pairwise
distinct, even when two records request the same initial identifier. -/
theorem claim_C1 (s : ContState) (st : StatusUpdate) (l : List StatusUpdate) :
    (st.id ≤ (store s st).2.id ∧
     mapHasKey s.status_mapping (store s st).2.id = false ∧
     (∀ j, st.id ≤ j → j < (store s st).2.id →
        mapHasKey s.status_mapping j = true)) ∧
    ((runStores s l).2).Nodup := by
  obtain ⟨i, heq, hle, hfree, hmin⟩ := store_spec s st
  have hid : (store s st).2.id = i := by rw [heq]
  rw [hid]
  exact ⟨⟨hle, hfree, hmin⟩, runStores_nodup l s⟩

theorem claim_C1_witness :
    stB.id ≤ (store sA stB).2.id ∧
    mapHasKey sA.status_mapping (store sA stB).2.id = false ∧
    mapHasKey sA.status_mapping 5 = true ∧
    ((runStores initState [stA, stB]).2).Nodup :=
  ⟨(claim_C1 sA stB []).1.1, (claim_C1 sA stB []).1.2.1,
   (claim_C1 sA stB []).1.2.2 5 (by decide) (by decide),
   (claim_C1 initState stB [stA, stB]).2⟩

/-- C2: after a record is committed by `store`, its assigned identifier is
a member of the author index entry for its author (so `user_keys` on the
one-author collection contains it) and a member of the tag index entry for
every one of its tags, and this persists after every further sequence of
`store` operations. -/
theorem claim_C2 (s : ContState) (st : StatusUpdate) (l : List StatusUpdate) :
    (store s st).2.id ∈ userSet (storeAll (store s st).1 l) st.userid ∧
    (store s st).2.id ∈
      user_keys (storeAll (store s st).1 l) (.list [st.userid]) none none ∧
    ∀ t, t ∈ st.tags →
      (store s st).2.id ∈ tagSet (storeAll (store s st).1 l) t := by
  have huser : (store s st).2.id ∈ userSet (storeAll (store s st).1 l) st.userid := by
    apply storeAll_userSet_pres
    exact (store_userSet_mem s st st.userid _).mpr (Or.inl ⟨rfl, rfl⟩)
  refine ⟨huser, ?_, ?_⟩
  · rw [user_keys_mem]
    exact ⟨⟨st.userid, by simp, huser⟩, by simp [minOk, boundFalsy],
      by simp [maxOk, boundFalsy]⟩
  · intro t ht
    apply storeAll_tagSet_pres
    exact (store_tagSet_mem s st t _).mpr (Or.inl ⟨ht, rfl⟩)

theorem claim_C2_witness :
    (store initState stA).2.id ∈
      userSet (storeAll (store initState stA).1 [stB]) stA.userid ∧
    (store initState stA).2.id ∈
      tagSet (storeAll (store initState stA).1 [stB]) "x" :=
  ⟨(claim_C2 initState stA [stB]).1,
   (claim_C2 initState stA [stB]).2.2 "x" (by decide)⟩

/-- C3 counterexample: the claim "an absent bound means unbounded, a
present bound is inclusive" fails for a present upper bound of 0: the
Python truthiness test `not max` treats it as absent, so the id 5 is
returned although 5 ≤ 0 does not hold. -/
theorem claim_C3_cex :
    user_keys sA (.list ["a"]) none (some 0) = [5] ∧ ¬ (5 ≤ 0) := by
  decide

/-- C3 (amended): for every list of author keys and every choice of bounds,
`user_keys` returns exactly the set-union of the identifier sets of the
requested keys — each identifier at most once, as a strictly ascending
sequence — restricted inclusively by each bound that is present AND
nonzero; an absent or zero bound means unbounded on that side. -/
theorem claim_C3 (s : ContState) (us : List String) (mn mx : Option Nat) :
    (user_keys s (.list us) mn mx).Sorted (fun a b => a < b) ∧
    ∀ x, x ∈ user_keys s (.list us) mn mx ↔
      ((∃ u, u ∈ us ∧ x ∈ userSet s u) ∧
       (∀ m, mn = some m → 0 < m → m ≤ x) ∧
       (∀ m, mx = some m → 0 < m → x ≤ m)) := by
  refine ⟨user_keys_sorted s (.list us) mn mx, ?_⟩
  intro x
  rw [user_keys_mem, minOk_iff, maxOk_iff]

theorem claim_C3_witness :
    List.Sorted (fun a b => a < b) (user_keys sA (.list ["a"]) none (some 0)) :=
  (claim_C3 sA ["a"] none (some 0)).1

/-- C4 counterexample: on a container fresh from `__init__` (volatile
`_v_timer` attribute never initialised) `flush_queue` with an empty queue
is not a safe no-op: it raises `AttributeError`. -/
theorem claim_C4_cex :
    flush_queue 5 initState [] = .error (.attributeError "_v_timer") := rfl

/-- C4 (amended): for every container state whose volatile timer attribute
has been initialised (as on every code path of the repository that reaches
`flush_queue`), flushing with an empty pending queue raises no error,
emits no notifications, leaves the primary store and both indexes
unchanged, returns 0 (no write), and still updates the flush timestamp and
cancels/clears any armed timer. -/
theorem claim_C4 (now : Nat) (s : ContState) (w : Option Nat)
    (h : s.v_timer = some w) :
    flush_queue now s [] =
      .ok ({ s with mtime := now, v_timer := some none }, [], 0) := by
  simp [flush_queue, h]

theorem claim_C4_witness :
    flush_queue 9 sArmedNone [] =
      .ok ({ sArmedNone with mtime := 9, v_timer := some none }, [], 0) :=
  claim_C4 9 sArmedNone none rfl

/-- C5 counterexample to the claim as stated: the error raised by the
blocked raw mutations carries the fixed message shown here, a phrase that
does not name the violated index-consistency invariant. -/
theorem claim_C5_cex :
    Microblog.insert initState 0 stA =
      .error (.notImplementedError "Can't allow that to happen.") := rfl

/-- C5 (amended): for every container state and every argument, each of the
raw-mutation entry points `insert`, `pop`, `setdefault` and `update` fails
with a `NotImplementedError` (the spec's `UnsupportedOperation`) carrying
the fixed message "Can't allow that to happen." — which names no invariant
— and never produces a modified state, so the primary store and both
indexes are left unchanged. -/
theorem claim_C5 (s : ContState) (key : Nat) (value : StatusUpdate)
    (k : Nat) (d : Option StatusUpdate) (k2 : Nat) (d2 : StatusUpdate)
    (collection : List (Nat × StatusUpdate)) :
    Microblog.insert s key value =
      .error (.notImplementedError "Can't allow that to happen.") ∧
    pop s k d = .error (.notImplementedError "Can't allow that to happen.") ∧
    setdefault s k2 d2 =
      .error (.notImplementedError "Can't allow that to happen.") ∧
    update s collection =
      .error (.notImplementedError "Can't allow that to happen.") :=
  ⟨rfl, rfl, rfl, rfl⟩

/-- C6: with the batch window configured to zero, `add` of a valid record
commits it synchronously: when `add` returns, the record is retrievable
from the primary mapping under its assigned identifier and indexed by
author and tags, `add` reports an immediate write (1), and neither the
pending queue nor the timer is touched. -/
theorem claim_C6 (now : Nat) (s : ContState) (q : Queue) (st : StatusUpdate)
    (h : st.providesIStatusUpdate = true) :
    add 0 now s q st = .ok ((store s st).1, q, 1) ∧
    mapGet (store s st).1.status_mapping (store s st).2.id =
      some (store s st).2 ∧
    (store s st).2.id ∈ userSet (store s st).1 st.userid ∧
    (∀ t, t ∈ st.tags → (store s st).2.id ∈ tagSet (store s st).1 t) ∧
    (store s st).1.v_timer = s.v_timer := by
  refine ⟨?_, ?_, ?_, ?_, store_v_timer s st⟩
  · simp [add, check_status, h]
  · rw [store_mapGet]
    simp
  · exact (store_userSet_mem s st st.userid _).mpr (Or.inl ⟨rfl, rfl⟩)
  · intro t ht
    exact (store_tagSet_mem s st t _).mpr (Or.inl ⟨ht, rfl⟩)

theorem claim_C6_witness :
    add 0 3 initState [] stA = .ok ((store initState stA).1, [], 1) ∧
    (store initState stA).2.id ∈ userSet (store initState stA).1 stA.userid :=
  ⟨(claim_C6 3 initState [] stA rfl).1, (claim_C6 3 initState [] stA rfl).2.2.1⟩

/-- C7: a value that does not provide the status-update capability is
rejected by `add` with the `ValueError` (the spec's `ValidationError`)
raised by `_check_status` before anything is enqueued or stored, so no
modified state, queue, or timer is ever produced. -/
theorem claim_C7 (M now : Nat) (s : ContState) (q : Queue) (st : StatusUpdate)
    (h : st.providesIStatusUpdate = false) :
    add M now s q st =
      .error (.valueError "IStatusUpdate interface not provided.") := by
  simp [add, check_status, h]

theorem claim_C7_witness :
    add 1000 3 initState [] stBad =
      .error (.valueError "IStatusUpdate interface not provided.") :=
  claim_C7 1000 3 initState [] stBad rfl

/-- C8 counterexample: the single-string shorthand fails for the empty
string when "" is an indexed author: `user_keys` of the string "" is empty
(Python truthiness `not users`), while `user_keys` of the one-element
collection [""] returns that author's ids. -/
theorem claim_C8_cex :
    user_keys sE (.str "") none none = [] ∧
    user_keys sE (.list [""]) none none = [3] := by
  decide

/-- C8 (amended): for every bounds choice, `user_keys` on an empty keys
collection — and likewise on the empty string — returns the empty sequence
(never "all records"), and for every NON-EMPTY string key, `user_keys` of
the single string equals `user_keys` of the one-element collection
containing it. -/
theorem claim_C8 (s : ContState) (mn mx : Option Nat) (k : String) :
    user_keys s (.list []) mn mx = [] ∧
    user_keys s (.str "") mn mx = [] ∧
    (k ≠ "" → user_keys s (.str k) mn mx = user_keys s (.list [k]) mn mx) := by
  refine ⟨by simp [user_keys, usersFalsy], by simp [user_keys, usersFalsy], ?_⟩
  intro hk
  simp [user_keys, usersFalsy, usersList, hk]

theorem claim_C8_witness :
    user_keys sE (.list []) none none = [] ∧
    user_keys sE (.str "a") none none = user_keys sE (.list ["a"]) none none :=
  ⟨(claim_C8 sE none none "a").1, (claim_C8 sE none none "a").2.2 (by decide)⟩

/-- C9: the pending queue is process-global rather than per container: a
record enqueued through `add` on container `b` (positive batch window, the
window not yet expired so autoflush does not fire) stays in the shared
queue, and a subsequent `flush_queue` on a different container `a` drains
it and commits it into `a`'s primary store and `a`'s indexes. -/
theorem claim_C9 (M now now2 : Nat) (a b : ContState) (q : Queue)
    (st : StatusUpdate) (hM : 0 < M) (hst : st.providesIStatusUpdate = true)
    (hfresh : now ≤ b.mtime + M) (ha : a.v_timer ≠ none) :
    add M now b q st = .ok (schedule_flush M b, queuePut q st, 0) ∧
    ∃ a2, flush_queue now2 a (queuePut q st) = .ok (a2, [], 1) ∧
      ∃ i, mapGet a2.status_mapping i = some { st with id := i } ∧
        i ∈ userSet a2 st.userid ∧
        ∀ t, t ∈ st.tags → i ∈ tagSet a2 t := by
  constructor
  · have hcond : ¬ (now - (schedule_flush M b).mtime > M) := by
      rw [schedule_flush_mtime]
      omega
    simp [add, check_status, hst, hM, autoflush, hcond]
  · cases hv : a.v_timer with
    | none => exact absurd hv ha
    | some w =>
        have hne : (queuePut q st).isEmpty = false := by simp [queuePut]
        refine ⟨storeAll { a with mtime := now2, v_timer := some none }
            ((queueDrainOrder (queuePut q st)).map Prod.snd), ?_, ?_⟩
        · simp [flush_queue, hv, hne, flush_fold_eq_storeAll]
        · apply storeAll_commits
          apply List.mem_map.mpr
          refine ⟨(st.id, st), ?_, rfl⟩
          rw [queueDrainOrder, List.mem_insertionSort (fun a b : Nat × StatusUpdate => a.1 ≤ b.1)]
          simp [queuePut]

theorem claim_C9_witness :
    add 1000 500 sArmedNone [] stA =
      .ok (schedule_flush 1000 sArmedNone, queuePut [] stA, 0) :=
  (claim_C9 1000 500 2000 sArmedNone sArmedNone [] stA (by decide) rfl
    (by decide) (by decide)).1

/-- C10: whenever `_schedule_flush` arms a fallback timer (positive batch
window, no timer already armed), the armed delay in seconds is exactly the
batch window in milliseconds divided by 1000 and rounded up to a whole
number of seconds — the two arithmetic conjuncts characterise
`(M + 999) / 1000` as that ceiling — regardless of any sub-second batch
window. -/
theorem claim_C10 (M : Nat) (s : ContState) (hM : 0 < M)
    (h : s.v_timer = none ∨ s.v_timer = some none) :
    (schedule_flush M s).v_timer = some (some ((M + 999) / 1000)) ∧
    M ≤ ((M + 999) / 1000) * 1000 ∧
    ((M + 999) / 1000) * 1000 < M + 1000 := by
  have hM0 : M ≠ 0 := Nat.pos_iff_ne_zero.mp hM
  refine ⟨?_, by omega, by omega⟩
  rcases h with h | h <;> simp [schedule_flush, hM0, h]

theorem claim_C10_witness :
    (schedule_flush 250 initState).v_timer = some (some ((250 + 999) / 1000)) ∧
    250 ≤ ((250 + 999) / 1000) * 1000 ∧
    ((250 + 999) / 1000) * 1000 < 250 + 1000 :=
  claim_C10 250 initState (by decide) (Or.inl rfl)

end Microblog
